import Mathlib

/-
  Verification development for the tlparse repository (vLLM support and CLI).

  The definitions below are shallow embeddings of the Rust sources:
  - src/vllm/types.rs   : the vLLM data model
  - src/vllm/parsers.rs : the per-run accumulator (VllmState) and its parsers
  - src/cli.rs          : multi-rank discovery and orchestration, and the
                          sandboxed static file server

  Rust machine integers are embedded as Nat or Int with explicit bounds where
  overflow matters; fallible operations return Option or Except; interior
  mutability (RefCell) becomes explicit state passing on a VllmState value.
-/

namespace Tlparse

/-! ### Character-level helpers embedding Rust std string operations -/

/-- Embeds Rust str::strip_prefix on character lists: returns the remainder
when the list starts with the given prefix string, and none otherwise. -/
def dropPre : List Char → List Char → Option (List Char)
  | [], s => some s
  | _ :: _, [] => none
  | p :: ps, c :: cs => if c = p then dropPre ps cs else none

/-- Embeds Rust str::strip_suffix via reversal. -/
def dropSuf (suf s : List Char) : Option (List Char) :=
  (dropPre suf.reverse s.reverse).map List.reverse

/-- Embeds Rust str::starts_with on character lists. -/
def hasPre : List Char → List Char → Bool
  | [], _ => true
  | _ :: _, [] => false
  | p :: ps, c :: cs => c = p && hasPre ps cs

/-- Decimal digit value of a character, none for non-digits. -/
def decDigitVal (c : Char) : Option Nat :=
  if '0' ≤ c ∧ c ≤ '9' then some (c.toNat - '0'.toNat) else none

/-- Accumulating decimal parse over a digit list; fails on any non-digit. -/
def parseDigitsAux (acc : Nat) : List Char → Option Nat
  | [] => some acc
  | c :: cs =>
    match decDigitVal c with
    | some d => parseDigitsAux (acc * 10 + d) cs
    | none => none

/-- Embeds Rust str::parse to u32: an optional leading plus sign, then one
or more decimal digits, with the value required to fit in 32 bits. -/
def parseU32 (s : List Char) : Option Nat :=
  let t := match s with
    | '+' :: rest => rest
    | _ => s
  match t with
  | [] => none
  | _ =>
    match parseDigitsAux 0 t with
    | some n => if n < 2 ^ 32 then some n else none
    | none => none

/-- Embeds Rust std::path::Path::file_name on a flat path string: the
characters after the last separator. -/
def fileNameChars (s : List Char) : List Char :=
  s.foldl (fun acc c => if c = '/' then [] else acc ++ [c]) []

/-- Embeds Rust Path::file_stem on the file-name characters: the portion
before the last dot, except that a lone leading dot belongs to the stem. -/
def stemOfName (n : List Char) : List Char :=
  let rev := n.reverse
  let fromDot := rev.dropWhile (· ≠ '.')
  if fromDot.isEmpty then n
  else
    let stem := fromDot.tail.reverse
    if stem.isEmpty then n else stem

/-- Embeds Path::file_stem on a whole path: none when there is no file name. -/
def fileStemChars (s : List Char) : Option (List Char) :=
  let n := fileNameChars s
  if n.isEmpty then none else some (stemOfName n)

/-! ### vLLM data model (src/vllm/types.rs) -/

/-- Embeds ArtifactInfo (types.rs): name, url and display suffix. -/
structure ArtifactInfo where
  name : String
  url : String
  suffix : String
deriving DecidableEq, Repr

/-- Embeds VllmCompilationConfig (types.rs): all fields optional. The source
also has a second Option String field between model and mode whose Rust name
is a Lean keyword; it is embedded here under the name name_pre. No claim
inspects individual fields, only whole-value replacement. -/
structure VllmCompilationConfig where
  model : Option String := none
  name_pre : Option String := none
  mode : Option String := none
  backend : Option String := none
  custom_ops : Option String := none
  splitting_ops : Option String := none
  cudagraph_mode : Option String := none
  compile_sizes : Option String := none
  compile_ranges_split_points : Option String := none
  use_inductor_graph_partition : Option Bool := none
  inductor_passes : Option String := none
  enabled_passes : Option String := none
  dynamic_shapes_type : Option String := none
  dynamic_shapes_evaluate_guards : Option Bool := none
deriving DecidableEq, Repr

/-- Embeds VllmSubgraphInfo (types.rs). The artifacts field carries
serde(skip), so decoded values always have an empty artifact list. -/
structure VllmSubgraphInfo where
  index : Int
  submod_name : Option String := none
  compile_range_start : Int
  compile_range_end : Int
  is_single_size : Bool
  is_cudagraph_size : Bool
  artifacts : List ArtifactInfo := []
deriving DecidableEq, Repr

/-- Embeds VllmSubgraphInfo::size_or_range (types.rs lines 37-46). -/
def VllmSubgraphInfo.size_or_range (sg : VllmSubgraphInfo) : String :=
  if sg.is_single_size then "size " ++ toString sg.compile_range_start
  else "range [" ++ toString sg.compile_range_start ++ ", " ++
    toString sg.compile_range_end ++ "]"

/-- Embeds VllmSubgraphInfo::display_submod_name (types.rs lines 48-52). -/
def VllmSubgraphInfo.display_submod_name (sg : VllmSubgraphInfo) : String :=
  match sg.submod_name with
  | some n => n
  | none => "subgraph_" ++ toString sg.index

/-- Embeds VllmSubgraphWithArtifacts (types.rs). -/
structure VllmSubgraphWithArtifacts where
  submod_name : String
  artifacts : List ArtifactInfo
  artifact_count : Nat
deriving DecidableEq, Repr

/-- Embeds VllmCompileRangeGroup (types.rs). -/
structure VllmCompileRangeGroup where
  size_or_range : String
  submod_count : Nat
  submods : List VllmSubgraphWithArtifacts
deriving DecidableEq, Repr

/-- Embeds VllmState (parsers.rs lines 14-21); each RefCell field becomes a
plain field of an explicitly threaded state value. -/
structure VllmState where
  config : Option VllmCompilationConfig := none
  piecewise_graph_file : Option String := none
  subgraphs : List VllmSubgraphInfo := []
  pre_subgraph_artifacts : List ArtifactInfo := []
  has_vllm_artifacts : Bool := false
deriving DecidableEq, Repr

/-- Fresh state, as VllmState::new / Default (parsers.rs lines 24-26). -/
def VllmState.init : VllmState := {}

/-! ### Accumulator operations (src/vllm/parsers.rs) -/

/-- Builds the ArtifactInfo recorded by VllmState::add_artifact
(parsers.rs lines 33-46): url is the lossy path string, name is the file
stem falling back to the url. -/
def mkArtifact (filename suffix : String) : ArtifactInfo :=
  let url := filename
  let name := match fileStemChars filename.data with
    | some cs => String.mk cs
    | none => url
  { name := name, url := url, suffix := suffix }

/-- Appends an artifact to the last element of a subgraph list, as
subgraphs.last_mut() followed by push (parsers.rs lines 47-49). -/
def appendToLastSub (a : ArtifactInfo) : List VllmSubgraphInfo → List VllmSubgraphInfo
  | [] => []
  | [sg] => [{ sg with artifacts := sg.artifacts ++ [a] }]
  | sg :: rest => sg :: appendToLastSub a rest

/-- Embeds VllmState::add_artifact (parsers.rs lines 33-53): records the
piecewise split-graph file when the stem matches, then attaches the artifact
to the most recently pushed subgraph, or to pre_subgraph_artifacts when no
subgraph exists yet. -/
def VllmState.add_artifact (s : VllmState) (filename suffix : String) : VllmState :=
  let artifact := mkArtifact filename suffix
  let s :=
    if hasPre "vllm_piecewise_split_graph".data artifact.name.data then
      { s with piecewise_graph_file := some artifact.url }
    else s
  if s.subgraphs.isEmpty then
    { s with pre_subgraph_artifacts := s.pre_subgraph_artifacts ++ [artifact] }
  else
    { s with subgraphs := appendToLastSub artifact s.subgraphs }

/-- Embeds the subgraph push performed by VllmPiecewiseCompileParser::parse
(parsers.rs lines 195-197). The pushed value comes from serde, whose
serde(skip) attribute forces an empty artifact list on decode. -/
def VllmState.pushUnit (s : VllmState) (info : VllmSubgraphInfo) : VllmState :=
  { s with subgraphs := s.subgraphs ++ [{ info with artifacts := [] }] }

/-- Inserts into an insertion-ordered map represented as an association
list: append to an existing key in place, else add a new key at the end.
Embeds IndexMap::entry().or_default().push (parsers.rs lines 65-72). -/
def groupInsert (m : List (String × List VllmSubgraphWithArtifacts))
    (k : String) (v : VllmSubgraphWithArtifacts) :
    List (String × List VllmSubgraphWithArtifacts) :=
  if m.any (fun e => e.1 = k) then
    m.map (fun e => if e.1 = k then (e.1, e.2 ++ [v]) else e)
  else m ++ [(k, [v])]

/-- Embeds VllmState::build_compile_range_groups (parsers.rs lines 56-83). -/
def VllmState.build_compile_range_groups (s : VllmState) : List VllmCompileRangeGroup :=
  let m := s.subgraphs.foldl
    (fun m sg =>
      groupInsert m sg.size_or_range
        { submod_name := sg.display_submod_name
          artifacts := sg.artifacts
          artifact_count := sg.artifacts.length })
    []
  m.map (fun e => { size_or_range := e.1, submod_count := e.2.length, submods := e.2 })

/-- Embeds build_compile_range_groups as a state transformer: the source
method takes a shared borrow and only reads, so the state is returned
unchanged alongside the computed groups. -/
def VllmState.buildGroupsOp (s : VllmState) : VllmState × List VllmCompileRangeGroup :=
  (s, s.build_compile_range_groups)

/-- Embeds VllmState::build_dynamo_artifacts (parsers.rs lines 86-99). -/
def VllmState.build_dynamo_artifacts (s : VllmState) : List ArtifactInfo :=
  let dynamo_names := ["dynamo_side_effects", "dynamo_output_graph",
    "dynamo_cpp_guards_str", "compilation_metrics"]
  s.pre_subgraph_artifacts.filter
    (fun a => dynamo_names.any (fun n => hasPre n.data a.name.data))

/-- The has-config flag of the summary context: state.config.borrow().is_some()
(parsers.rs line 277). -/
def VllmState.hasConfig (s : VllmState) : Bool := s.config.isSome

/-! ### Parser steps (src/vllm/parsers.rs) -/

/-- Embeds the ParserOutput variants produced by the vLLM parsers. The
reformat variant's pretty-printing closure acts at emission time and is not
modelled; only the variant and target path matter to the claims. -/
inductive ParserOut where
  | payloadReformatFile (path : String)
  | payloadFile (path : String)
deriving DecidableEq, Repr

/-- Modelled from the spec: build_file_path lives in src/parsers.rs, which is
not part of the provided sources. Per the spec, emitted filenames are
disambiguated by compile id when present, else by line number, keeping the
extension last. -/
def buildFilePath (filename : String) (lineno : Nat) (compileId : Option String) : String :=
  match compileId with
  | some cid => filename ++ "_" ++ cid
  | none => filename ++ "_" ++ toString lineno

/-- Embeds VllmCompilationConfigParser::parse (parsers.rs lines 128-146).
The serde_json decode of the payload is represented by its result: some
config on success, none on structural failure. The function always returns
Ok with one reformat output. -/
def configParseStep (s : VllmState) (lineno : Nat) (compileId : Option String)
    (decoded : Option VllmCompilationConfig) :
    VllmState × Except String (List ParserOut) :=
  let s1 := match decoded with
    | some c => { s with config := some c, has_vllm_artifacts := true }
    | none => s
  (s1, Except.ok [ParserOut.payloadReformatFile
    (buildFilePath "vllm_compilation_config.json" lineno compileId)])

/-- The two metadata shapes VllmPiecewiseCompileParser::parse can receive
(parsers.rs lines 167-180): the compile-start artifact, or a graph dump. -/
inductive PwMeta where
  | artifact
  | graphDump (name : String)
deriving DecidableEq, Repr

/-- Embeds VllmPiecewiseCompileParser::parse (parsers.rs lines 183-209).
decodedSub is the result of the serde_json decode of the payload in the
artifact branch; the graph-dump branch never decodes. -/
def piecewiseParseStep (s : VllmState) (lineno : Nat) (compileId : Option String)
    (meta : PwMeta) (decodedSub : Option VllmSubgraphInfo) :
    VllmState × Except String (List ParserOut) :=
  let s1 := { s with has_vllm_artifacts := true }
  match meta with
  | PwMeta.artifact =>
    match decodedSub with
    | some sub => (s1.pushUnit sub, Except.ok [])
    | none => (s1, Except.ok [])
  | PwMeta.graphDump name =>
    (s1, Except.ok [ParserOut.payloadFile (buildFilePath (name ++ ".txt") lineno compileId)])

/-! ### Multi-rank discovery and orchestration (src/cli.rs) -/

/-- One entry of the input directory listing: its file name and whether it
is a regular file (cli.rs lines 223-228). -/
structure DirEntry where
  name : String
  isFile : Bool
deriving DecidableEq, Repr

/-- The fixed file-name portion before the rank token (cli.rs line 230). -/
def rankLogPre : List Char := "dedicated_log_torch_trace_rank_".data

/-- The fixed file-name suffix (cli.rs line 231). -/
def logSuf : List Char := ".log".data

/-- Embeds the per-entry qualification of handle_all_ranks discovery
(cli.rs lines 228-236): strip the fixed leading portion, strip the .log
suffix, split at the first underscore, and parse the first token as u32. -/
def rankOfName (name : List Char) : Option Nat :=
  (dropPre rankLogPre name).bind fun rest =>
    (dropSuf logSuf rest).bind fun mid =>
      parseU32 (mid.takeWhile (· ≠ '_'))

/-- Embeds the discovery filter_map of handle_all_ranks (cli.rs lines
221-238): keeps, in directory-listing order, each regular file whose name
qualifies, paired with its parsed rank number. -/
def discoverRankLogs (entries : List DirEntry) : List (String × Nat) :=
  entries.filterMap fun e =>
    if e.isFile then (rankOfName e.name.data).map (fun r => (e.name, r)) else none

/-- Embeds rank_nums.sort_unstable (cli.rs lines 248-249): ascending numeric
sort of the discovered rank numbers. -/
def sortedRankNums (logs : List (String × Nat)) : List Nat :=
  List.insertionSort (· ≤ ·) (logs.map (fun p => p.2))

/-- Embeds sorted_ranks (cli.rs line 250): the sorted rank numbers rendered
as strings for the landing context. -/
def sortedRankStrs (logs : List (String × Nat)) : List String :=
  (sortedRankNums logs).map (fun r => toString r)

/-- The on-disk output tree of one multi-rank run. subdirs maps each
existing rank_n subdirectory to the log whose complete output it holds
(none while created but not fully written); landing and landingRanks record
the landing page; processedOrder records the order in which the per-rank
loop visited rank numbers. -/
structure OutFS where
  subdirs : List (Nat × Option String) := []
  landing : Bool := false
  landingRanks : List String := []
  processedOrder : List Nat := []
deriving DecidableEq, Repr

/-- The empty output tree at the start of handle_all_ranks. -/
def initOutFS : OutFS := {}

/-- The failures handle_all_ranks can surface. -/
inductive RankErr where
  | dirExists (rank : Nat)
  | rankFailed (log : String) (msg : String)
  | noRankLogs
deriving DecidableEq, Repr

/-- Overwrites the value stored at an existing key of the subdirectory map. -/
def assocSet (sd : List (Nat × Option String)) (r : Nat) (v : Option String) :
    List (Nat × Option String) :=
  sd.map (fun p => if p.1 = r then (r, v) else p)

/-- Embeds setup_output_directory (cli.rs lines 136-148) on a rank
subdirectory: an existing directory without the overwrite flag is an error
raised before any mutation; otherwise the directory is removed (contents
dropped) and recreated empty. -/
def setupDir (sd : List (Nat × Option String)) (r : Nat) (ov : Bool) :
    Except RankErr (List (Nat × Option String)) :=
  if sd.any (fun p => p.1 = r) then
    if ov then Except.ok (assocSet sd r none)
    else Except.error (RankErr.dirExists r)
  else Except.ok (sd ++ [(r, none)])

/-- One iteration of the per-rank loop (cli.rs lines 252-256): create the
rank subdirectory via setup_output_directory, then run the single-rank
pipeline. The pipeline outcome is abstracted by the oracle: ok marks the
subdirectory fully written, error leaves it created but incomplete. Returns
the disk state together with the error, if any, since failures do not roll
back prior writes. -/
def stepRank (oracle : String → Except String Unit) (ov : Bool)
    (fs : OutFS) (log : String) (r : Nat) : OutFS × Option RankErr :=
  match setupDir fs.subdirs r ov with
  | Except.error e => (fs, some e)
  | Except.ok sd =>
    match oracle log with
    | Except.ok _ => ({ fs with subdirs := assocSet sd r (some log) }, none)
    | Except.error m => ({ fs with subdirs := sd }, some (RankErr.rankFailed log m))

/-- The fail-fast per-rank loop of handle_all_ranks (cli.rs lines 252-256):
pairs are visited in discovery order and the first error stops the loop,
keeping everything already on disk. -/
def processRanks (oracle : String → Except String Unit) (ov : Bool) :
    OutFS → List (String × Nat) → OutFS × Option RankErr
  | fs, [] => (fs, none)
  | fs, (log, r) :: rest =>
    match stepRank oracle ov
        { fs with processedOrder := fs.processedOrder ++ [r] } log r with
    | (fs1, none) => processRanks oracle ov fs1 rest
    | (fs1, some e) => (fs1, some e)

/-- Embeds handle_all_ranks (cli.rs lines 203-277) after the input-path and
top-level output-directory checks: discover rank logs, fail when none
qualify, process each discovered pair in listing order, and only on full
success write the landing page carrying the numerically sorted rank labels. -/
def handleAllRanksCore (oracle : String → Except String Unit) (ov : Bool)
    (logs : List (String × Nat)) : OutFS × Option RankErr :=
  if logs.isEmpty then (initOutFS, some RankErr.noRankLogs)
  else
    match processRanks oracle ov initOutFS logs with
    | (fs, none) => ({ fs with landing := true, landingRanks := sortedRankStrs logs }, none)
    | (fs, some e) => (fs, some e)

def handleAllRanks (oracle : String → Except String Unit) (ov : Bool)
    (entries : List DirEntry) : OutFS × Option RankErr :=
  handleAllRanksCore oracle ov (discoverRankLogs entries)

/-! ### Sandboxed static file server (src/cli.rs serve_directory) -/

/-- Hexadecimal digit value, as accepted by u8::from_str_radix with radix
16: decimal digits and both letter cases. -/
def hexDigitVal (c : Char) : Option Nat :=
  if '0' ≤ c ∧ c ≤ '9' then some (c.toNat - '0'.toNat)
  else if 'a' ≤ c ∧ c ≤ 'f' then some (c.toNat - 'a'.toNat + 10)
  else if 'A' ≤ c ∧ c ≤ 'F' then some (c.toNat - 'A'.toNat + 10)
  else none

/-- Embeds u8::from_str_radix(hex, 16) on a two-character string (cli.rs
line 372): an optional leading plus sign then hex digits; two hex digits
never overflow u8. -/
def hex2Val (a b : Char) : Option Nat :=
  if a = '+' then hexDigitVal b
  else
    match hexDigitVal a, hexDigitVal b with
    | some x, some y => some (x * 16 + y)
    | _, _ => none

/-- Embeds urlencoding_decode (cli.rs lines 365-386): percent sequences
decode to the named byte, a plus becomes a space, everything else passes
through; malformed or short sequences are emitted literally. -/
def urlDecodeChars : List Char → List Char
  | [] => []
  | '%' :: a :: b :: rest =>
    match hex2Val a b with
    | some n => Char.ofNat n :: urlDecodeChars rest
    | none => '%' :: a :: b :: urlDecodeChars rest
  | ['%', a] => ['%', a]
  | ['%'] => ['%']
  | '+' :: rest => ' ' :: urlDecodeChars rest
  | c :: rest => c :: urlDecodeChars rest

/-- String wrapper for urlencoding_decode. -/
def urlDecode (s : String) : String := String.mk (urlDecodeChars s.data)

/-- A filesystem path as its components, the shape on which Path
prefix-comparison operates. -/
abbrev FPath := List String

/-- Splits a character list at every slash, keeping empty segments. -/
def splitSlash : List Char → List (List Char)
  | [] => [[]]
  | c :: cs =>
    let r := splitSlash cs
    if c = '/' then [] :: r
    else
      match r with
      | [] => [[c]]
      | g :: gs => (c :: g) :: gs

/-- Splits a path string into components, dropping empty segments as
PathBuf does for repeated or trailing separators. -/
def pathComponents (s : String) : List String :=
  ((splitSlash s.data).map String.mk).filter (fun c => c ≠ "")

/-- Embeds request.url().trim_start_matches for the leading slash
(cli.rs line 308). -/
def trimLeadSlashes (s : String) : String := String.mk (s.data.dropWhile (· = '/'))

/-- Embeds the per-request target construction (cli.rs lines 308-315):
strip leading slashes, percent-decode, then either index.html under the
root for an empty path, or PathBuf::join — which replaces the whole path
when the decoded path is absolute (a decoded %2F can reintroduce a leading
slash). -/
def requestTarget (dir : FPath) (rawUrl : String) : FPath :=
  let urlPath := urlDecode (trimLeadSlashes rawUrl)
  if urlPath.isEmpty then dir ++ ["index.html"]
  else if hasPre "/".data urlPath.data then pathComponents urlPath
  else dir ++ pathComponents urlPath

/-- Outcome of opening and fully reading a file, mirroring the two failure
points of cli.rs lines 329-347: open can fail, and read_to_end can fail. -/
inductive ReadOutcome (γ : Type) where
  | ok (content : γ)
  | openFail
  | readFail
deriving DecidableEq, Repr

/-- The filesystem as seen by the server for one request: canonicalization
(resolving symlinks, dot and dot-dot components, failing for missing
paths), the regular-file test, and the open-and-read operation. -/
structure ServerFS (γ : Type) where
  canon : FPath → Option FPath
  isFile : FPath → Bool
  readFile : FPath → ReadOutcome γ

/-- The three response shapes the server produces (cli.rs lines 320-357).
Both the sandbox-violation branch and the genuinely-missing branch build
the literal 404 response, so they share one constructor. -/
inductive Response (γ : Type) where
  | ok (contentType : String) (content : γ)
  | notFound
  | internalErr
deriving DecidableEq, Repr

/-- Extension of the file name after the last dot, as Path::extension: none
for a lone leading dot or no dot, mapped to the empty string by the
unwrap_or in guess_content_type. -/
def extChars (n : List Char) : List Char :=
  let rev := n.reverse
  let after := rev.takeWhile (· ≠ '.')
  if after.length = n.length then []
  else if (rev.drop (after.length + 1)).isEmpty then []
  else after.reverse

/-- ASCII lowercase on character lists; the recognized extensions of the
content-type table are all ASCII. -/
def lowerChars (l : List Char) : List Char := l.map Char.toLower

/-- Embeds guess_content_type (cli.rs lines 389-405) on the last path
component. -/
def guessContentType (p : FPath) : String :=
  let name := p.getLastD ""
  let ext := String.mk (lowerChars (extChars name.data))
  if ext = "html" ∨ ext = "htm" then "text/html; charset=utf-8"
  else if ext = "css" then "text/css; charset=utf-8"
  else if ext = "js" then "application/javascript; charset=utf-8"
  else if ext = "json" then "application/json; charset=utf-8"
  else if ext = "png" then "image/png"
  else if ext = "jpg" ∨ ext = "jpeg" then "image/jpeg"
  else if ext = "gif" then "image/gif"
  else if ext = "svg" then "image/svg+xml"
  else if ext = "txt" then "text/plain; charset=utf-8"
  else if ext = "py" then "text/x-python; charset=utf-8"
  else "application/octet-stream"

/-- Embeds one iteration of the request loop of serve_directory (cli.rs
lines 307-358): build the target, canonicalize it fresh, require the
canonical served root as a component-wise path prefix (404 otherwise, the
sole traversal defense), then serve a regular file with 200, map read
failure to 500, open failure and non-files to 404. -/
def handleRequest {γ : Type} (fs : ServerFS γ) (dir : FPath) (rawUrl : String) :
    Response γ :=
  match fs.canon (requestTarget dir rawUrl) with
  | none => Response.notFound
  | some p =>
    if dir.isPrefixOf p then
      if fs.isFile p then
        match fs.readFile p with
        | ReadOutcome.ok content => Response.ok (guessContentType p) content
        | ReadOutcome.openFail => Response.notFound
        | ReadOutcome.readFail => Response.internalErr
      else Response.notFound
    else Response.notFound

/-- Embeds the request loop itself (cli.rs line 307): requests are handled
one after another with no state carried between iterations. -/
def serveLoop {γ : Type} (fs : ServerFS γ) (dir : FPath) :
    List String → List (Response γ)
  | [] => []
  | r :: rest => handleRequest fs dir r :: serveLoop fs dir rest

/-! ### Spec-level companions, written from the words of the spec -/

/-- The accumulator operations the spec describes for RunState. -/
inductive AccOp where
  | pushUnit (info : VllmSubgraphInfo)
  | addArtifact (filename suffix : String)
deriving DecidableEq, Repr

/-- Dispatch of one accumulator operation onto the embedded source
operations. -/
def applyAccOp (s : VllmState) : AccOp → VllmState
  | AccOp.pushUnit info => s.pushUnit info
  | AccOp.addArtifact f sfx => s.add_artifact f sfx

/-- Runs a sequence of accumulator operations from a state. -/
def runAccOps (s : VllmState) (ops : List AccOp) : VllmState :=
  ops.foldl applyAccOp s

/-- Appends an element to the last inner list, leaving earlier lists
untouched. -/
def appendLast (x : α) : List (List α) → List (List α)
  | [] => []
  | [l] => [l ++ [x]]
  | l :: ls => l :: appendLast x ls

/-- Modelled from the spec: one step of the attach-to-most-recent rule.
The first component holds, per created unit in creation order, the
artifacts attached to it; the second is the pre-unit bucket. A push creates
a fresh empty unit; an added artifact goes to the most recently created
unit, or to the bucket when no unit exists yet. -/
def specAttachStep (acc : List (List ArtifactInfo) × List ArtifactInfo) :
    AccOp → List (List ArtifactInfo) × List ArtifactInfo
  | AccOp.pushUnit _ => (acc.1 ++ [[]], acc.2)
  | AccOp.addArtifact f sfx =>
    if acc.1.isEmpty then (acc.1, acc.2 ++ [mkArtifact f sfx])
    else (appendLast (mkArtifact f sfx) acc.1, acc.2)

/-- Modelled from the spec: the artifact assignment produced by a whole
operation sequence under the attach-to-most-recent rule. -/
def specAttach (ops : List AccOp) : List (List ArtifactInfo) × List ArtifactInfo :=
  ops.foldl specAttachStep ([], [])

/-- Modelled from the spec: the distinct elements of a list in first-seen
order. -/
def firstKeys : List String → List String
  | [] => []
  | k :: ks => k :: firstKeys (ks.filter (fun x => x ≠ k))
termination_by l => l.length
decreasing_by
  simp only [List.length_cons]
  exact Nat.lt_succ_of_le (List.length_filter_le _ _)

/-- The per-member record build_compile_range_groups pushes for one
subgraph (parsers.rs lines 68-72). -/
def subWith (sg : VllmSubgraphInfo) : VllmSubgraphWithArtifacts :=
  { submod_name := sg.display_submod_name
    artifacts := sg.artifacts
    artifact_count := sg.artifacts.length }

/-- Modelled from the spec: the grouping as an association list — one entry
per distinct display key in first-seen order, holding the members with that
key in insertion order. -/
def canonGroups (p : List VllmSubgraphInfo) :
    List (String × List VllmSubgraphWithArtifacts) :=
  (firstKeys (p.map (fun sg => sg.size_or_range))).map
    (fun k => (k, (p.filter (fun sg => sg.size_or_range = k)).map subWith))

/-! ### Theorems -/

/-- The subgraph list after add_artifact: the piecewise-file branch never
touches it, so only the attach decision remains. -/
theorem add_artifact_subgraphs (s : VllmState) (f x : String) :
    (s.add_artifact f x).subgraphs =
      if s.subgraphs.isEmpty then s.subgraphs
      else appendToLastSub (mkArtifact f x) s.subgraphs := by
  unfold VllmState.add_artifact
  cases hp : hasPre "vllm_piecewise_split_graph".data (mkArtifact f x).name.data <;>
    cases hs : s.subgraphs <;> simp [hp, hs]

/-- The pre-subgraph bucket after add_artifact. -/
theorem add_artifact_pre (s : VllmState) (f x : String) :
    (s.add_artifact f x).pre_subgraph_artifacts =
      if s.subgraphs.isEmpty then s.pre_subgraph_artifacts ++ [mkArtifact f x]
      else s.pre_subgraph_artifacts := by
  unfold VllmState.add_artifact
  cases hp : hasPre "vllm_piecewise_split_graph".data (mkArtifact f x).name.data <;>
    cases hs : s.subgraphs <;> simp [hp, hs]

/-- Appending to the last subgraph commutes with projecting artifact
lists. -/
theorem map_artifacts_appendToLastSub (a : ArtifactInfo) (l : List VllmSubgraphInfo) :
    (appendToLastSub a l).map (fun sg => sg.artifacts) =
      appendLast a (l.map (fun sg => sg.artifacts)) := by
  induction l with
  | nil => rfl
  | cons sg rest ih =>
    cases rest with
    | nil => rfl
    | cons sg2 r2 => simpa [appendToLastSub, appendLast] using ih

/-- One accumulator operation refines one spec attachment step on the
observable assignment (per-unit artifact lists and the pre-unit bucket). -/
theorem applyAccOp_spec (s : VllmState) (op : AccOp) :
    ((applyAccOp s op).subgraphs.map (fun sg => sg.artifacts),
     (applyAccOp s op).pre_subgraph_artifacts) =
    specAttachStep
      (s.subgraphs.map (fun sg => sg.artifacts), s.pre_subgraph_artifacts) op := by
  cases op with
  | pushUnit info => simp [applyAccOp, VllmState.pushUnit, specAttachStep]
  | addArtifact f x =>
    cases h : s.subgraphs with
    | nil =>
      simp [applyAccOp, specAttachStep, add_artifact_subgraphs, add_artifact_pre, h]
    | cons sg rest =>
      simp [applyAccOp, specAttachStep, add_artifact_subgraphs, add_artifact_pre, h,
        map_artifacts_appendToLastSub]

/-- Running accumulator operations refines the spec attachment fold from
any starting state. -/
theorem runAccOps_spec (ops : List AccOp) :
    ∀ s : VllmState,
      ((runAccOps s ops).subgraphs.map (fun sg => sg.artifacts),
       (runAccOps s ops).pre_subgraph_artifacts) =
      ops.foldl specAttachStep
        (s.subgraphs.map (fun sg => sg.artifacts), s.pre_subgraph_artifacts) := by
  induction ops with
  | nil => intro s; rfl
  | cons op rest ih =>
    intro s
    have hstep := applyAccOp_spec s op
    calc ((runAccOps (applyAccOp s op) rest).subgraphs.map (fun sg => sg.artifacts),
          (runAccOps (applyAccOp s op) rest).pre_subgraph_artifacts)
        = rest.foldl specAttachStep
            ((applyAccOp s op).subgraphs.map (fun sg => sg.artifacts),
             (applyAccOp s op).pre_subgraph_artifacts) := ih (applyAccOp s op)
      _ = rest.foldl specAttachStep
            (specAttachStep
              (s.subgraphs.map (fun sg => sg.artifacts), s.pre_subgraph_artifacts) op) := by
          rw [hstep]

/-- C1: for every operation sequence the accumulator realizes exactly the
attach-to-most-recent assignment of the spec — each artifact lands on the
unit most recently pushed when it was added, or in the pre-subgraph bucket
when no unit existed; a push creates an empty unit and leaves every earlier
assignment untouched; and the four-operation example of the spec yields the
artifact lists [A1] for the first unit and [A2] for the second. -/
theorem c1_attach_most_recent :
    (∀ ops : List AccOp,
      ((runAccOps VllmState.init ops).subgraphs.map (fun sg => sg.artifacts),
       (runAccOps VllmState.init ops).pre_subgraph_artifacts) = specAttach ops)
    ∧ (∀ (s : VllmState) (info : VllmSubgraphInfo),
        (s.pushUnit info).subgraphs.map (fun sg => sg.artifacts) =
          s.subgraphs.map (fun sg => sg.artifacts) ++ [[]]
        ∧ (s.pushUnit info).pre_subgraph_artifacts = s.pre_subgraph_artifacts)
    ∧ (∀ (s0 s1 : VllmSubgraphInfo) (f1 x1 f2 x2 : String),
        (runAccOps VllmState.init
          [AccOp.pushUnit s0, AccOp.addArtifact f1 x1,
           AccOp.pushUnit s1, AccOp.addArtifact f2 x2]).subgraphs.map
            (fun sg => sg.artifacts) = [[mkArtifact f1 x1], [mkArtifact f2 x2]]) := by
  refine ⟨fun ops => runAccOps_spec ops VllmState.init, ?_, ?_⟩
  · intro s info
    exact ⟨by simp [VllmState.pushUnit], rfl⟩
  · intro s0 s1 f1 x1 f2 x2
    have h := runAccOps_spec
      [AccOp.pushUnit s0, AccOp.addArtifact f1 x1,
       AccOp.pushUnit s1, AccOp.addArtifact f2 x2] VllmState.init
    have h1 := congrArg Prod.fst h
    simpa [specAttachStep, appendLast] using h1

/-- firstKeys keeps exactly the elements of its input. -/
theorem mem_firstKeys (l : List String) (x : String) : x ∈ firstKeys l ↔ x ∈ l := by
  induction l using firstKeys.induct with
  | case1 => simp [firstKeys]
  | case2 k ks ih =>
    simp only [firstKeys, List.mem_cons, ih, List.mem_filter, decide_eq_true_eq, ne_eq]
    by_cases h : x = k <;> simp [h]

/-- Appending one element extends the first-seen key list only when the
element is new. -/
theorem firstKeys_append (xs : List String) (x : String) :
    firstKeys (xs ++ [x]) =
      if x ∈ xs then firstKeys xs else firstKeys xs ++ [x] := by
  induction xs using firstKeys.induct with
  | case1 => simp [firstKeys]
  | case2 y ys ih =>
    by_cases hxy : x = y
    · subst hxy
      simp [firstKeys, List.filter_append]
    · simp only [List.cons_append, firstKeys, List.filter_append]
      have hxfilter : [x].filter (fun z => z ≠ y) = [x] := by simp [hxy]
      rw [hxfilter, ih]
      have hmem : x ∈ ys.filter (fun z => z ≠ y) ↔ x ∈ ys := by
        simp [List.mem_filter, hxy]
      by_cases hin : x ∈ ys
      · simp [hmem, hin, hxy, firstKeys]
      · simp [hmem, hin, hxy, firstKeys]

/-- Filtering an appended singleton that matches the key keeps it. -/
theorem filter_append_sing_pos (p : List VllmSubgraphInfo) (a : VllmSubgraphInfo)
    (x : String) (h : a.size_or_range = x) :
    (p ++ [a]).filter (fun sg => sg.size_or_range = x) =
      p.filter (fun sg => sg.size_or_range = x) ++ [a] := by
  simp [List.filter_append, h]

/-- Filtering an appended singleton that misses the key drops it. -/
theorem filter_append_sing_neg (p : List VllmSubgraphInfo) (a : VllmSubgraphInfo)
    (x : String) (h : ¬ a.size_or_range = x) :
    (p ++ [a]).filter (fun sg => sg.size_or_range = x) =
      p.filter (fun sg => sg.size_or_range = x) := by
  simp [List.filter_append, h]

/-- Inserting one subgraph into the canonical grouping of a processed
prefix yields the canonical grouping of the extended prefix. -/
theorem groupInsert_canon (p : List VllmSubgraphInfo) (a : VllmSubgraphInfo) :
    groupInsert (canonGroups p) a.size_or_range (subWith a) = canonGroups (p ++ [a]) := by
  classical
  by_cases hmem : a.size_or_range ∈ p.map (fun sg => sg.size_or_range)
  · -- existing key: append the member to its group in place
    have hanyT : (canonGroups p).any (fun e => e.1 = a.size_or_range) = true := by
      refine List.any_eq_true.mpr ?_
      refine ⟨(a.size_or_range,
        (p.filter (fun sg => sg.size_or_range = a.size_or_range)).map subWith), ?_, by simp⟩
      unfold canonGroups
      exact List.mem_map.mpr ⟨a.size_or_range, (mem_firstKeys _ _).mpr hmem, rfl⟩
    unfold groupInsert
    rw [hanyT]
    simp only [if_true]
    unfold canonGroups
    rw [List.map_append]
    simp only [List.map_cons, List.map_nil]
    rw [firstKeys_append, if_pos hmem, List.map_map]
    refine List.map_congr_left ?_
    intro x hx
    simp only [Function.comp_apply]
    by_cases hxk : x = a.size_or_range
    · rw [if_pos hxk, filter_append_sing_pos p a x hxk.symm, List.map_append]
      rfl
    · rw [if_neg hxk,
        filter_append_sing_neg p a x (fun hc => hxk hc.symm)]
  · -- new key: a fresh group is appended at the end
    have hanyF : (canonGroups p).any (fun e => e.1 = a.size_or_range) = false := by
      refine List.any_eq_false.mpr ?_
      intro e he
      unfold canonGroups at he
      obtain ⟨x, hx, rfl⟩ := List.mem_map.mp he
      have hxp : x ∈ p.map (fun sg => sg.size_or_range) := (mem_firstKeys _ _).mp hx
      simp only [decide_eq_true_eq]
      exact fun hc => hmem (hc ▸ hxp)
    unfold groupInsert
    rw [hanyF]
    simp only [Bool.false_eq_true, if_false]
    unfold canonGroups
    rw [List.map_append]
    simp only [List.map_cons, List.map_nil]
    rw [firstKeys_append, if_neg hmem, List.map_append]
    congr 1
    · refine List.map_congr_left ?_
      intro x hx
      have hxp : x ∈ p.map (fun sg => sg.size_or_range) := (mem_firstKeys _ _).mp hx
      have hxk : ¬ a.size_or_range = x := fun hc => hmem (hc ▸ hxp)
      rw [filter_append_sing_neg p a x hxk]
    · have hpnil : p.filter (fun sg => sg.size_or_range = a.size_or_range) = [] := by
        rw [List.filter_eq_nil_iff]
        intro sg hsg
        simp only [decide_eq_true_eq]
        exact fun hc => hmem (List.mem_map.mpr ⟨sg, hsg, hc⟩)
      rw [List.map_cons, List.map_nil, filter_append_sing_pos p a _ rfl, hpnil]
      rfl

/-- The grouping fold from the canonical grouping of a processed prefix
lands on the canonical grouping of the whole list. -/
theorem foldGroups_canon (l : List VllmSubgraphInfo) :
    ∀ p : List VllmSubgraphInfo,
      l.foldl (fun m sg => groupInsert m sg.size_or_range (subWith sg)) (canonGroups p) =
        canonGroups (p ++ l) := by
  induction l with
  | nil => intro p; simp
  | cons a rest ih =>
    intro p
    rw [List.foldl_cons, groupInsert_canon, ih (p ++ [a])]
    simp

/-- C5: build_compile_range_groups groups subgraphs by their display key —
size N for a single-size unit, range [start, end] otherwise — with the
distinct keys in first-seen order, members of each group in insertion
order, submod_count equal to the member count, and each member's
artifact_count equal to the length of its artifact list. -/
theorem c5_compile_range_groups (s : VllmState) :
    s.build_compile_range_groups =
      (firstKeys (s.subgraphs.map (fun sg => sg.size_or_range))).map
        (fun k =>
          { size_or_range := k
            submod_count := (s.subgraphs.filter (fun sg => sg.size_or_range = k)).length
            submods := (s.subgraphs.filter (fun sg => sg.size_or_range = k)).map subWith })
    ∧ (∀ sg : VllmSubgraphInfo,
        sg.size_or_range =
          if sg.is_single_size then "size " ++ toString sg.compile_range_start
          else "range [" ++ toString sg.compile_range_start ++ ", " ++
            toString sg.compile_range_end ++ "]")
    ∧ (∀ g ∈ s.build_compile_range_groups, ∀ m ∈ g.submods,
        m.artifact_count = m.artifacts.length) := by
  have hfold := foldGroups_canon s.subgraphs []
  simp only [List.nil_append] at hfold
  have h1 : s.build_compile_range_groups =
      (firstKeys (s.subgraphs.map (fun sg => sg.size_or_range))).map
        (fun k =>
          { size_or_range := k
            submod_count := (s.subgraphs.filter (fun sg => sg.size_or_range = k)).length
            submods := (s.subgraphs.filter (fun sg => sg.size_or_range = k)).map subWith }) := by
    unfold VllmState.build_compile_range_groups
    show (s.subgraphs.foldl
        (fun m sg => groupInsert m sg.size_or_range (subWith sg)) []).map
        (fun e => ({ size_or_range := e.1, submod_count := e.2.length, submods := e.2 } :
          VllmCompileRangeGroup)) = _
    rw [show ([] : List (String × List VllmSubgraphWithArtifacts)) = canonGroups [] by
        simp [canonGroups, firstKeys], hfold]
    unfold canonGroups
    rw [List.map_map]
    refine List.map_congr_left ?_
    intro k hk
    simp [Function.comp_apply, List.length_map]
  refine ⟨h1, fun sg => rfl, ?_⟩
  intro g hg m hm
  rw [h1] at hg
  obtain ⟨k, hk, rfl⟩ := List.mem_map.mp hg
  obtain ⟨sg, hsg, rfl⟩ := List.mem_map.mp hm
  rfl

/-- C6: a successful config parse unconditionally replaces any previously
stored configuration, so after two successful parses only the second config
is retrievable, and both the has-config flag and the any-domain-artifact
flag are true. -/
theorem c6_set_config_replaces (s : VllmState) (c1 c2 : VllmCompilationConfig)
    (l1 l2 : Nat) (id1 id2 : Option String) :
    ((configParseStep (configParseStep s l1 id1 (some c1)).1 l2 id2 (some c2)).1.config
        = some c2)
    ∧ (configParseStep (configParseStep s l1 id1 (some c1)).1 l2 id2 (some c2)).1.hasConfig
        = true
    ∧ (configParseStep (configParseStep s l1 id1 (some c1)).1 l2 id2
        (some c2)).1.has_vllm_artifacts = true := by
  simp [configParseStep, VllmState.hasConfig]

/-- C8: a record whose payload fails structural decoding still yields a
successful parse result, and the structured state the parser would have
recorded — the stored config for the config parser, the subgraph list for
the piecewise parser — is left unchanged. -/
theorem c8_decode_failure_nonfatal (s : VllmState) (l : Nat) (cid : Option String) :
    (configParseStep s l cid none).1 = s
    ∧ (configParseStep s l cid none).2 =
        Except.ok [ParserOut.payloadReformatFile
          (buildFilePath "vllm_compilation_config.json" l cid)]
    ∧ (piecewiseParseStep s l cid PwMeta.artifact none).1.subgraphs = s.subgraphs
    ∧ (piecewiseParseStep s l cid PwMeta.artifact none).1.config = s.config
    ∧ (piecewiseParseStep s l cid PwMeta.artifact none).2 = Except.ok [] := by
  simp [configParseStep, piecewiseParseStep]

/-- dropPre succeeds exactly on lists that start with the given pattern. -/
theorem dropPre_eq_some (p : List Char) :
    ∀ s t : List Char, dropPre p s = some t ↔ s = p ++ t := by
  induction p with
  | nil => intro s t; simp [dropPre]
  | cons c cs ih =>
    intro s t
    cases s with
    | nil => simp [dropPre]
    | cons a as =>
      by_cases h : a = c
      · subst h; simp [dropPre, ih]
      · simp [dropPre, h]

/-- dropSuf succeeds exactly on lists that end with the given pattern. -/
theorem dropSuf_eq_some (suf s t : List Char) :
    dropSuf suf s = some t ↔ s = t ++ suf := by
  unfold dropSuf
  cases hd : dropPre suf.reverse s.reverse with
  | none =>
    simp only [Option.map, Option.bind]
    constructor
    · intro h; cases h
    · intro he
      have : dropPre suf.reverse s.reverse = some t.reverse := by
        refine (dropPre_eq_some _ _ _).mpr ?_
        rw [he, List.reverse_append]
      rw [hd] at this
      cases this
  | some u =>
    have hs : s.reverse = suf.reverse ++ u := (dropPre_eq_some _ _ _).mp hd
    have hs2 : s = u.reverse ++ suf := by
      have h2 := congrArg List.reverse hs
      simpa [List.reverse_append] using h2
    simp only [Option.map, Option.some.injEq]
    constructor
    · intro ht; rw [← ht]; exact hs2
    · intro he
      rw [hs2] at he
      exact List.append_cancel_right he

/-- A file name qualifies for rank discovery with rank r precisely when it
is the fixed leading portion, then any middle text whose first
underscore-separated token parses as u32 to r, then the .log suffix. -/
theorem rankOfName_iff (name : List Char) (r : Nat) :
    rankOfName name = some r ↔
      ∃ mid : List Char, name = rankLogPre ++ mid ++ logSuf ∧
        parseU32 (mid.takeWhile (fun c => c ≠ '_')) = some r := by
  unfold rankOfName
  constructor
  · intro h
    cases h1 : dropPre rankLogPre name with
    | none => rw [h1] at h; cases h
    | some rest =>
      rw [h1] at h
      simp only [Option.some_bind] at h
      cases h2 : dropSuf logSuf rest with
      | none => rw [h2] at h; cases h
      | some mid =>
        rw [h2] at h
        simp only [Option.some_bind] at h
        refine ⟨mid, ?_, h⟩
        have ha : name = rankLogPre ++ rest := (dropPre_eq_some _ _ _).mp h1
        have hb : rest = mid ++ logSuf := (dropSuf_eq_some _ _ _).mp h2
        rw [ha, hb, List.append_assoc]
  · rintro ⟨mid, hname, hparse⟩
    have h1 : dropPre rankLogPre name = some (mid ++ logSuf) := by
      refine (dropPre_eq_some _ _ _).mpr ?_
      rw [hname, List.append_assoc]
    have h2 : dropSuf logSuf (mid ++ logSuf) = some mid :=
      (dropSuf_eq_some _ _ _).mpr rfl
    rw [h1]
    simp only [Option.some_bind]
    rw [h2]
    simpa using hparse

/-- Discovery is exactly the qualifying entries, in listing order, paired
with their parsed ranks. -/
theorem discover_filter (entries : List DirEntry) :
    discoverRankLogs entries =
      (entries.filter (fun e => e.isFile && (rankOfName e.name.data).isSome)).map
        (fun e => (e.name, (rankOfName e.name.data).getD 0)) := by
  induction entries with
  | nil => rfl
  | cons e rest ih =>
    unfold discoverRankLogs at ih ⊢
    rw [List.filterMap_cons, List.filter_cons]
    cases hf : e.isFile with
    | false => simpa [hf] using ih
    | true =>
      cases ho : rankOfName e.name.data with
      | none => simpa [hf, ho] using ih
      | some r => simpa [hf, ho] using ih

/-- C3: a directory entry qualifies for multi-rank discovery exactly when
it is a regular file named with the fixed leading portion, a first token
parsing as a non-negative 32-bit integer, and the .log suffix;
non-qualifying entries are silently excluded; the rank numbers for the
landing context are sorted ascending numerically; and an empty qualifying
set makes the whole operation fail before any rank output or landing page
is written. -/
theorem c3_discovery :
    (∀ (name : List Char) (r : Nat),
      rankOfName name = some r ↔
        ∃ mid : List Char, name = rankLogPre ++ mid ++ logSuf ∧
          parseU32 (mid.takeWhile (fun c => c ≠ '_')) = some r)
    ∧ (∀ entries : List DirEntry,
        discoverRankLogs entries =
          (entries.filter (fun e => e.isFile && (rankOfName e.name.data).isSome)).map
            (fun e => (e.name, (rankOfName e.name.data).getD 0)))
    ∧ (∀ entries : List DirEntry,
        List.Sorted (fun a b => a ≤ b) (sortedRankNums (discoverRankLogs entries))
        ∧ (sortedRankNums (discoverRankLogs entries)).Perm
            ((discoverRankLogs entries).map (fun p => p.2))
        ∧ sortedRankStrs (discoverRankLogs entries) =
            (sortedRankNums (discoverRankLogs entries)).map (fun r => toString r))
    ∧ (∀ (oracle : String → Except String Unit) (ov : Bool) (entries : List DirEntry),
        discoverRankLogs entries = [] →
          handleAllRanks oracle ov entries = (initOutFS, some RankErr.noRankLogs)
          ∧ initOutFS.subdirs = [] ∧ initOutFS.landing = false) := by
  refine ⟨rankOfName_iff, discover_filter, ?_, ?_⟩
  · intro entries
    refine ⟨List.sorted_insertionSort _ _, List.perm_insertionSort _ _, rfl⟩
  · intro oracle ov entries h
    refine ⟨?_, rfl, rfl⟩
    unfold handleAllRanks
    rw [h]
    rfl

/-- stepRank never touches the processed-order trace or the landing
fields. -/
theorem stepRank_fields (oracle : String → Except String Unit) (ov : Bool)
    (fs : OutFS) (log : String) (r : Nat) :
    (stepRank oracle ov fs log r).1.processedOrder = fs.processedOrder
    ∧ (stepRank oracle ov fs log r).1.landing = fs.landing
    ∧ (stepRank oracle ov fs log r).1.landingRanks = fs.landingRanks := by
  unfold stepRank
  cases hs : setupDir fs.subdirs r ov with
  | error e => simp
  | ok sd => cases ho : oracle log <;> simp

/-- Writing the just-created entry of the subdirectory map touches only
that entry. -/
theorem assocSet_append_new (sd : List (Nat × Option String)) (r : Nat)
    (v : Option String) (h : ∀ q ∈ sd, q.1 ≠ r) :
    assocSet (sd ++ [(r, none)]) r v = sd ++ [(r, v)] := by
  unfold assocSet
  rw [List.map_append]
  congr 1
  · have hmap : sd.map (fun p => if p.1 = r then (r, v) else p) = sd.map id :=
      List.map_congr_left (fun q hq => by simp [h q hq])
    simpa using hmap
  · simp

/-- Processing a list of distinct, individually succeeding rank logs from a
disk state that holds none of their ranks appends one completed
subdirectory per pair, in order, and succeeds. -/
theorem processRanks_all_ok (oracle : String → Except String Unit) (ov : Bool) :
    ∀ (logs : List (String × Nat)) (fs : OutFS),
      (∀ p ∈ logs, oracle p.1 = Except.ok ()) →
      (logs.map (fun p => p.2)).Nodup →
      (∀ p ∈ logs, ∀ q ∈ fs.subdirs, q.1 ≠ p.2) →
      processRanks oracle ov fs logs =
        ({ fs with
            subdirs := fs.subdirs ++ logs.map (fun p => (p.2, some p.1)),
            processedOrder := fs.processedOrder ++ logs.map (fun p => p.2) }, none) := by
  intro logs
  induction logs with
  | nil => intro fs _ _ _; simp [processRanks]
  | cons hd rest ih =>
    obtain ⟨log, r⟩ := hd
    intro fs hok hnodup havoid
    have hany : (fs.subdirs.any (fun p => p.1 = r)) = false := by
      refine List.any_eq_false.mpr ?_
      intro q hq
      simpa using havoid (log, r) (by simp) q hq
    have hstep : stepRank oracle ov
        { fs with processedOrder := fs.processedOrder ++ [r] } log r
        = ({ fs with
              subdirs := fs.subdirs ++ [(r, some log)],
              processedOrder := fs.processedOrder ++ [r] }, none) := by
      unfold stepRank setupDir
      rw [show ({ fs with processedOrder := fs.processedOrder ++ [r] } : OutFS).subdirs
        = fs.subdirs from rfl, hany]
      simp only [Bool.false_eq_true, if_false]
      rw [hok (log, r) (by simp)]
      rw [assocSet_append_new fs.subdirs r (some log)
        (fun q hq => by simpa using havoid (log, r) (by simp) q hq)]
    simp only [processRanks]
    rw [hstep]
    have hmc : (r :: rest.map (fun p => p.2)).Nodup := by simpa using hnodup
    have hnod2 : (rest.map (fun p => p.2)).Nodup := (List.nodup_cons.mp hmc).2
    have hrnot : r ∉ rest.map (fun p => p.2) := (List.nodup_cons.mp hmc).1
    have havoid2 : ∀ p ∈ rest,
        ∀ q ∈ fs.subdirs ++ [(r, some log)], q.1 ≠ p.2 := by
      intro p hp q hq
      rcases List.mem_append.mp hq with hq1 | hq2
      · exact havoid p (List.mem_cons_of_mem _ hp) q hq1
      · have : q = (r, some log) := by simpa using hq2
        subst this
        intro hc
        refine hrnot ?_
        rw [show r = p.2 from hc]
        exact List.mem_map.mpr ⟨p, hp, rfl⟩
    show processRanks oracle ov
      ⟨fs.subdirs ++ [(r, some log)], fs.landing, fs.landingRanks,
        fs.processedOrder ++ [r]⟩ rest = _
    rw [ih _ (fun p hp => hok p (List.mem_cons_of_mem _ hp)) hnod2 havoid2]
    simp [List.append_assoc]

/-- The fail-fast loop distributes over list append: the tail runs only
when the head part succeeded. -/
theorem processRanks_append (oracle : String → Except String Unit) (ov : Bool) :
    ∀ (l1 l2 : List (String × Nat)) (fs : OutFS),
      processRanks oracle ov fs (l1 ++ l2) =
        match processRanks oracle ov fs l1 with
        | (fs1, none) => processRanks oracle ov fs1 l2
        | (fs1, some e) => (fs1, some e) := by
  intro l1
  induction l1 with
  | nil => intro l2 fs; simp [processRanks]
  | cons hd rest ih =>
    obtain ⟨log, r⟩ := hd
    intro l2 fs
    simp only [List.cons_append, processRanks]
    cases hs : stepRank oracle ov
        { fs with processedOrder := fs.processedOrder ++ [r] } log r with
    | mk fs1 eopt => cases eopt <;> simp [ih]

/-- C4: the first per-rank failure aborts the whole multi-rank operation:
the completed subdirectories of the ranks processed before it stay on
disk, the failing rank leaves only its freshly created directory, the
operation reports the failure, and no landing page is produced. -/
theorem c4_fail_fast (oracle : String → Except String Unit) (ov : Bool)
    (entries : List DirEntry) (pre : List (String × Nat)) (x : String × Nat)
    (post : List (String × Nat)) (msg : String)
    (hdisc : discoverRankLogs entries = pre ++ x :: post)
    (hnodup : ((pre ++ [x]).map (fun p => p.2)).Nodup)
    (hok : ∀ p ∈ pre, oracle p.1 = Except.ok ())
    (hx : oracle x.1 = Except.error msg) :
    handleAllRanks oracle ov entries =
      ({ subdirs := pre.map (fun p => (p.2, some p.1)) ++ [(x.2, none)],
         landing := false, landingRanks := [],
         processedOrder := pre.map (fun p => p.2) ++ [x.2] },
       some (RankErr.rankFailed x.1 msg)) := by
  unfold handleAllRanks
  rw [hdisc]
  unfold handleAllRanksCore
  have hne : (pre ++ x :: post).isEmpty = false := by
    cases pre <;> rfl
  rw [hne]
  simp only [Bool.false_eq_true, if_false]
  have hnodpre : (pre.map (fun p => p.2)).Nodup := by
    rw [List.map_append] at hnodup
    exact (List.nodup_append.mp hnodup).1
  have hxnot : x.2 ∉ pre.map (fun p => p.2) := by
    rw [List.map_append] at hnodup
    have hdisj := (List.nodup_append.mp hnodup).2.2
    intro hc
    exact hdisj hc (by simp)
  have hpre := processRanks_all_ok oracle ov pre initOutFS hok hnodpre
    (fun p hp q hq => by cases hq)
  rw [show pre ++ x :: post = (pre ++ [x]) ++ post by simp,
    processRanks_append, processRanks_append, hpre]
  have hany2 : ((initOutFS.subdirs ++ pre.map (fun p => (p.2, some p.1))).any
      (fun p => p.1 = x.2)) = false := by
    refine List.any_eq_false.mpr ?_
    intro q hq
    rcases List.mem_append.mp hq with hq1 | hq2
    · cases hq1
    · obtain ⟨p, hp, rfl⟩ := List.mem_map.mp hq2
      simp only [decide_eq_true_eq]
      intro hc
      exact hxnot (hc ▸ List.mem_map.mpr ⟨p, hp, rfl⟩)
  obtain ⟨xlog, xrank⟩ := x
  simp only [processRanks]
  unfold stepRank setupDir
  rw [show ({ initOutFS with
      subdirs := initOutFS.subdirs ++ pre.map (fun p => (p.2, some p.1)),
      processedOrder := initOutFS.processedOrder ++ pre.map (fun p => p.2) ++ [xrank] } :
        OutFS).subdirs
    = initOutFS.subdirs ++ pre.map (fun p => (p.2, some p.1)) from rfl]
  rw [hany2]
  simp only [Bool.false_eq_true, if_false]
  rw [hx]
  simp [initOutFS]

/-- A fully successful processing pass records exactly the visited rank
numbers, in visiting order, and leaves the landing fields alone. -/
theorem processRanks_ok_fields (oracle : String → Except String Unit) (ov : Bool) :
    ∀ (logs : List (String × Nat)) (fs fs' : OutFS),
      processRanks oracle ov fs logs = (fs', none) →
      fs'.processedOrder = fs.processedOrder ++ logs.map (fun p => p.2)
      ∧ fs'.landing = fs.landing ∧ fs'.landingRanks = fs.landingRanks := by
  intro logs
  induction logs with
  | nil =>
    intro fs fs' h
    simp only [processRanks, Prod.mk.injEq] at h
    rw [← h.1]
    simp
  | cons hd rest ih =>
    obtain ⟨log, r⟩ := hd
    intro fs fs' h
    simp only [processRanks] at h
    cases hs : stepRank oracle ov
        { fs with processedOrder := fs.processedOrder ++ [r] } log r with
    | mk fs1 eopt =>
      rw [hs] at h
      cases eopt with
      | some e => simp at h
      | none =>
        have hf := stepRank_fields oracle ov
          { fs with processedOrder := fs.processedOrder ++ [r] } log r
        rw [hs] at hf
        obtain ⟨ho, hl, hr⟩ := ih fs1 fs' h
        refine ⟨?_, ?_, ?_⟩
        · rw [ho, hf.1]
          simp
        · rw [hl, hf.2.1]
        · rw [hr, hf.2.2]

/-- C7 (amended): every fully successful multi-rank run processes the
discovered pairs sequentially in the order the directory listing yielded
them — the processed-order trace equals the discovered rank sequence —
while the landing context carries the rank labels sorted ascending
numerically. -/
theorem c7_processing_order (oracle : String → Except String Unit) (ov : Bool)
    (entries : List DirEntry) (fs : OutFS)
    (h : handleAllRanks oracle ov entries = (fs, none)) :
    fs.processedOrder = (discoverRankLogs entries).map (fun p => p.2)
    ∧ fs.landingRanks = sortedRankStrs (discoverRankLogs entries) := by
  unfold handleAllRanks handleAllRanksCore at h
  by_cases he : (discoverRankLogs entries).isEmpty
  · rw [he] at h
    simp at h
  · have he2 : (discoverRankLogs entries).isEmpty = false := by
      simpa using he
    rw [he2] at h
    simp only [Bool.false_eq_true, if_false] at h
    cases hp : processRanks oracle ov initOutFS (discoverRankLogs entries) with
    | mk fs1 eopt =>
      rw [hp] at h
      cases eopt with
      | some e => simp at h
      | none =>
        have hfs := congrArg Prod.fst h
        dsimp only at hfs
        obtain ⟨ho, _, _⟩ := processRanks_ok_fields oracle ov _ _ _ hp
        subst hfs
        refine ⟨?_, rfl⟩
        show fs1.processedOrder = _
        simpa [initOutFS] using ho

/-- C7 counterexample: a directory listing that yields rank 3 before
rank 1 is processed as [3, 1] — the listing order — even though the
ascending rank order would be [1, 3]; the landing labels alone are
sorted. -/
theorem c7_counterexample :
    (handleAllRanks (fun _ => Except.ok ()) false
      [{ name := "dedicated_log_torch_trace_rank_3_x.log", isFile := true },
       { name := "dedicated_log_torch_trace_rank_1_x.log", isFile := true }]).2 = none
    ∧ (handleAllRanks (fun _ => Except.ok ()) false
      [{ name := "dedicated_log_torch_trace_rank_3_x.log", isFile := true },
       { name := "dedicated_log_torch_trace_rank_1_x.log", isFile := true }]).1.processedOrder
        = [3, 1]
    ∧ ¬ List.Sorted (fun a b => a ≤ b)
        ((handleAllRanks (fun _ => Except.ok ()) false
          [{ name := "dedicated_log_torch_trace_rank_3_x.log", isFile := true },
           { name := "dedicated_log_torch_trace_rank_1_x.log", isFile := true }]).1.processedOrder)
    ∧ (handleAllRanks (fun _ => Except.ok ()) false
      [{ name := "dedicated_log_torch_trace_rank_3_x.log", isFile := true },
       { name := "dedicated_log_torch_trace_rank_1_x.log", isFile := true }]).1.landingRanks
        = ["1", "3"] := by
  refine ⟨?_, ?_, ?_, ?_⟩ <;> decide

/-- C10: two discovered files carrying the same rank are both kept and
processed into the same rank subdirectory; without the overwrite flag the
second one fails on the already-existing subdirectory and aborts the run
with the first file's output on disk; with the overwrite flag the file
processed later — later in directory-listing order — silently replaces the
earlier one's output. -/
theorem c10_duplicate_ranks (n1 n2 : String) (r : Nat)
    (oracle : String → Except String Unit)
    (h1 : rankOfName n1.data = some r) (h2 : rankOfName n2.data = some r)
    (hok : ∀ l, oracle l = Except.ok ()) :
    discoverRankLogs [{ name := n1, isFile := true }, { name := n2, isFile := true }]
      = [(n1, r), (n2, r)]
    ∧ handleAllRanks oracle false
        [{ name := n1, isFile := true }, { name := n2, isFile := true }] =
        ({ subdirs := [(r, some n1)], landing := false, landingRanks := [],
           processedOrder := [r, r] }, some (RankErr.dirExists r))
    ∧ handleAllRanks oracle true
        [{ name := n1, isFile := true }, { name := n2, isFile := true }] =
        ({ subdirs := [(r, some n2)], landing := true,
           landingRanks := [toString r, toString r],
           processedOrder := [r, r] }, none) := by
  have hd : discoverRankLogs
      [{ name := n1, isFile := true }, { name := n2, isFile := true }]
      = [(n1, r), (n2, r)] := by
    unfold discoverRankLogs
    simp [h1, h2]
  refine ⟨hd, ?_, ?_⟩
  · unfold handleAllRanks
    rw [hd]
    unfold handleAllRanksCore
    simp [processRanks, stepRank, setupDir, assocSet, hok, initOutFS]
  · unfold handleAllRanks
    rw [hd]
    unfold handleAllRanksCore
    simp [processRanks, stepRank, setupDir, assocSet, hok, initOutFS,
      sortedRankStrs, sortedRankNums, List.insertionSort, List.orderedInsert]

/-- C2: the served root is enforced on the freshly canonicalized path of
every request: when the canonical path is outside the root the response is
the 404 value — the very same value a missing file produces, so the two
are indistinguishable — content is ever served only from canonical paths
under the root, no matter whether the target exists or is readable
elsewhere, and the request loop is stateless, handling each request
independently. -/
theorem c2_sandbox (γ : Type) (fs : ServerFS γ) (dir : FPath) (rawUrl : String) :
    ((∀ p, fs.canon (requestTarget dir rawUrl) = some p → ¬ dir.isPrefixOf p = true) →
      handleRequest fs dir rawUrl = Response.notFound)
    ∧ (∀ p, fs.canon (requestTarget dir rawUrl) = some p → dir.isPrefixOf p = true →
        fs.isFile p = false → handleRequest fs dir rawUrl = Response.notFound)
    ∧ (∀ (ct : String) (c : γ), handleRequest fs dir rawUrl = Response.ok ct c →
        ∃ p, fs.canon (requestTarget dir rawUrl) = some p ∧ dir.isPrefixOf p = true
          ∧ fs.isFile p = true ∧ fs.readFile p = ReadOutcome.ok c
          ∧ ct = guessContentType p)
    ∧ (∀ reqs : List String, serveLoop fs dir reqs = reqs.map (handleRequest fs dir)) := by
  refine ⟨?_, ?_, ?_, ?_⟩
  · intro h
    unfold handleRequest
    cases hc : fs.canon (requestTarget dir rawUrl) with
    | none => rfl
    | some p =>
      have hnp := h p hc
      rw [Bool.not_eq_true] at hnp
      dsimp only
      rw [hnp]
      simp
  · intro p hc hpre hfile
    unfold handleRequest
    rw [hc]
    dsimp only
    rw [hpre, hfile]
    simp
  · intro ct c h
    unfold handleRequest at h
    cases hc : fs.canon (requestTarget dir rawUrl) with
    | none => rw [hc] at h; simp at h
    | some p =>
      rw [hc] at h
      dsimp only at h
      by_cases hpre : dir.isPrefixOf p = true
      · rw [hpre] at h
        simp only [if_true] at h
        by_cases hfile : fs.isFile p = true
        · rw [hfile] at h
          simp only [if_true] at h
          cases hr : fs.readFile p with
          | ok c2 =>
            rw [hr] at h
            cases h
            exact ⟨p, rfl, hpre, hfile, hr, rfl⟩
          | openFail => rw [hr] at h; simp at h
          | readFail => rw [hr] at h; simp at h
        · rw [Bool.not_eq_true] at hfile
          rw [hfile] at h
          simp at h
      · rw [Bool.not_eq_true] at hpre
        rw [hpre] at h
        simp at h
  · intro reqs
    induction reqs with
    | nil => rfl
    | cons r rest ih => simp [serveLoop, ih]

/-- C9: build_compile_range_groups, embedded as the state transformer
buildGroupsOp, does not modify the accumulator, and calling it again on the
state the first call returned produces the identical result. -/
theorem c9_build_groups_pure_idempotent (s : VllmState) :
    (s.buildGroupsOp).1 = s
    ∧ ((s.buildGroupsOp).1.buildGroupsOp).2 = (s.buildGroupsOp).2 :=
  ⟨rfl, rfl⟩

/-- Witness for C2: a traversal request whose canonical path escapes the
root draws the 404 response even though the file exists and is readable. -/
theorem c2_sandbox_witness :
    handleRequest (γ := String)
      ⟨fun q => if q = ["root", "..", "secret.txt"] then some ["secret.txt"] else none,
       fun q => q = ["secret.txt"],
       fun _ => ReadOutcome.ok "secret-content"⟩
      ["root"] "/../secret.txt" = Response.notFound := by
  apply (c2_sandbox String
    ⟨fun q => if q = ["root", "..", "secret.txt"] then some ["secret.txt"] else none,
     fun q => q = ["secret.txt"],
     fun _ => ReadOutcome.ok "secret-content"⟩ ["root"] "/../secret.txt").1
  intro p hp
  have h1 : (if (requestTarget ["root"] "/../secret.txt") = ["root", "..", "secret.txt"]
      then some (["secret.txt"] : FPath) else none) = some p := hp
  rw [if_pos (by decide)] at h1
  cases h1
  decide

/-- Witness for C3: a well-formed rank-3 log name qualifies, and a listing
holding only notes.txt discovers nothing and fails with no output. -/
theorem c3_discovery_witness :
    rankOfName "dedicated_log_torch_trace_rank_3_foo.log".data = some 3
    ∧ handleAllRanks (fun _ => Except.ok ()) false
        [{ name := "notes.txt", isFile := true }]
      = (initOutFS, some RankErr.noRankLogs) := by
  constructor
  · exact (c3_discovery.1 "dedicated_log_torch_trace_rank_3_foo.log".data 3).mpr
      ⟨"3_foo".data, by decide, by decide⟩
  · exact ((c3_discovery.2.2.2 (fun _ => Except.ok ()) false
      [{ name := "notes.txt", isFile := true }]) (by decide)).1

/-- Witness for C4: with rank logs 0, 1 and 2 where rank 2 fails, ranks 0
and 1 keep their completed output, the run reports the rank-2 failure, and
no landing page exists. -/
theorem c4_fail_fast_witness :
    handleAllRanks
      (fun l => if l = "dedicated_log_torch_trace_rank_2_c.log"
        then Except.error "boom" else Except.ok ()) false
      [{ name := "dedicated_log_torch_trace_rank_0_a.log", isFile := true },
       { name := "dedicated_log_torch_trace_rank_1_b.log", isFile := true },
       { name := "dedicated_log_torch_trace_rank_2_c.log", isFile := true }] =
      ({ subdirs := [(0, some "dedicated_log_torch_trace_rank_0_a.log"),
                     (1, some "dedicated_log_torch_trace_rank_1_b.log"),
                     (2, none)],
         landing := false, landingRanks := [], processedOrder := [0, 1, 2] },
       some (RankErr.rankFailed "dedicated_log_torch_trace_rank_2_c.log" "boom")) := by
  have h := c4_fail_fast
    (fun l => if l = "dedicated_log_torch_trace_rank_2_c.log"
      then Except.error "boom" else Except.ok ()) false
    [{ name := "dedicated_log_torch_trace_rank_0_a.log", isFile := true },
     { name := "dedicated_log_torch_trace_rank_1_b.log", isFile := true },
     { name := "dedicated_log_torch_trace_rank_2_c.log", isFile := true }]
    [("dedicated_log_torch_trace_rank_0_a.log", 0),
     ("dedicated_log_torch_trace_rank_1_b.log", 1)]
    ("dedicated_log_torch_trace_rank_2_c.log", 2) [] "boom"
    (by decide) (by decide)
    (by
      intro p hp
      rcases List.mem_cons.mp hp with rfl | hp2
      · rfl
      rcases List.mem_cons.mp hp2 with rfl | hp3
      · rfl
      cases hp3)
    rfl
  exact h.trans (by decide)

/-- Witness for C5: two single-size-128 units group under one key in
first-seen order ahead of a range unit, and a concrete member's artifact
count equals its artifact-list length via the group membership of the
theorem. -/
theorem c5_groups_witness :
    ((VllmState.build_compile_range_groups
      { subgraphs :=
          [{ index := 0, compile_range_start := 128, compile_range_end := 128,
             is_single_size := true, is_cudagraph_size := false,
             artifacts := [{ name := "a", url := "a.txt", suffix := "" }] },
           { index := 2, compile_range_start := 0, compile_range_end := 64,
             is_single_size := false, is_cudagraph_size := false },
           { index := 1, compile_range_start := 128, compile_range_end := 128,
             is_single_size := true, is_cudagraph_size := false }] }).map
        (fun g => g.size_or_range)) = ["size 128", "range [0, 64]"]
    ∧ ({ submod_name := "subgraph_0",
         artifacts := [{ name := "a", url := "a.txt", suffix := "" }],
         artifact_count := 1 } : VllmSubgraphWithArtifacts).artifact_count =
        ({ submod_name := "subgraph_0",
           artifacts := [{ name := "a", url := "a.txt", suffix := "" }],
           artifact_count := 1 } : VllmSubgraphWithArtifacts).artifacts.length := by
  constructor
  · decide
  · exact (c5_compile_range_groups
      { subgraphs :=
          [{ index := 0, compile_range_start := 128, compile_range_end := 128,
             is_single_size := true, is_cudagraph_size := false,
             artifacts := [{ name := "a", url := "a.txt", suffix := "" }] },
           { index := 2, compile_range_start := 0, compile_range_end := 64,
             is_single_size := false, is_cudagraph_size := false },
           { index := 1, compile_range_start := 128, compile_range_end := 128,
             is_single_size := true, is_cudagraph_size := false }] }).2.2
      { size_or_range := "size 128", submod_count := 2,
        submods :=
          [{ submod_name := "subgraph_0",
             artifacts := [{ name := "a", url := "a.txt", suffix := "" }],
             artifact_count := 1 },
           { submod_name := "subgraph_1", artifacts := [], artifact_count := 0 }] }
      (by decide) _ (by decide)

/-- Witness for C7 (amended): on a listing yielding rank 3 before rank 1
the successful run processes [3, 1] while the landing labels are the
sorted [1, 3]. -/
theorem c7_processing_order_witness :
    ((handleAllRanks (fun _ => Except.ok ()) false
      [{ name := "dedicated_log_torch_trace_rank_3_y.log", isFile := true },
       { name := "dedicated_log_torch_trace_rank_1_y.log", isFile := true }]).1).processedOrder
      = [3, 1]
    ∧ ((handleAllRanks (fun _ => Except.ok ()) false
      [{ name := "dedicated_log_torch_trace_rank_3_y.log", isFile := true },
       { name := "dedicated_log_torch_trace_rank_1_y.log", isFile := true }]).1).landingRanks
      = ["1", "3"] := by
  have h := c7_processing_order (fun _ => Except.ok ()) false
    [{ name := "dedicated_log_torch_trace_rank_3_y.log", isFile := true },
     { name := "dedicated_log_torch_trace_rank_1_y.log", isFile := true }]
    ((handleAllRanks (fun _ => Except.ok ()) false
      [{ name := "dedicated_log_torch_trace_rank_3_y.log", isFile := true },
       { name := "dedicated_log_torch_trace_rank_1_y.log", isFile := true }]).1)
    (by decide)
  exact ⟨h.1.trans (by decide), h.2.trans (by decide)⟩

/-- Witness for C10: two files both carrying rank 5 are both discovered;
without overwrite the run aborts on the second with the first's output on
disk; with overwrite the second file's output replaces the first's. -/
theorem c10_duplicate_ranks_witness :
    discoverRankLogs
      [{ name := "dedicated_log_torch_trace_rank_5_a.log", isFile := true },
       { name := "dedicated_log_torch_trace_rank_5_b.log", isFile := true }]
      = [("dedicated_log_torch_trace_rank_5_a.log", 5),
         ("dedicated_log_torch_trace_rank_5_b.log", 5)]
    ∧ handleAllRanks (fun _ => Except.ok ()) false
        [{ name := "dedicated_log_torch_trace_rank_5_a.log", isFile := true },
         { name := "dedicated_log_torch_trace_rank_5_b.log", isFile := true }] =
        ({ subdirs := [(5, some "dedicated_log_torch_trace_rank_5_a.log")],
           landing := false, landingRanks := [], processedOrder := [5, 5] },
         some (RankErr.dirExists 5))
    ∧ handleAllRanks (fun _ => Except.ok ()) true
        [{ name := "dedicated_log_torch_trace_rank_5_a.log", isFile := true },
         { name := "dedicated_log_torch_trace_rank_5_b.log", isFile := true }] =
        ({ subdirs := [(5, some "dedicated_log_torch_trace_rank_5_b.log")],
           landing := true, landingRanks := ["5", "5"], processedOrder := [5, 5] },
         none) := by
  have h := c10_duplicate_ranks
    "dedicated_log_torch_trace_rank_5_a.log"
    "dedicated_log_torch_trace_rank_5_b.log" 5
    (fun _ => Except.ok ()) (by decide) (by decide) (fun l => rfl)
  exact ⟨h.1, h.2.1, h.2.2.trans (by decide)⟩

end Tlparse
